import Mathlib

/-!
Verification of the graph-analytics and layout core of the WWAI-GNN
repository (`graph-algorithms.ts` and `force-atlas2.ts`).

The TypeScript source is shallowly embedded here.  JavaScript numbers are
modelled exactly: the graph algorithms (adjacency builder, Louvain community
detection, Brandes betweenness centrality, edge-list builder) use `ℚ`, and the
ForceAtlas2 layout engine, which calls `Math.sqrt`, uses `ℝ` with `Real.sqrt`.
Arrays are modelled as `List`s or as functions out of `ℕ`; `undefined` lookups
are modelled with `Option`.
-/

/-- A directed spillover matrix: `matrix[code]` may be absent, and within a
row `row[code]` may be absent (JS `Record<string, Record<string, number>>`). -/
abbrev SpillMatrix := String → Option (String → Option ℚ)

/-- The simultaneous write `adj[i][j] = w; adj[j][i] = w` performed inside
`buildSymmetricAdjacency`'s inner loop. -/
def upd2 (adj : ℕ → ℕ → ℚ) (i j : ℕ) (w : ℚ) : ℕ → ℕ → ℚ :=
  fun a b => if (a = i ∧ b = j) ∨ (a = j ∧ b = i) then w else adj a b

/-- `max(forward, backward)` for the pair `(i, j)`:
`forward = row[cj] ?? 0`, `backward = matrix[cj]?.[ci] ?? 0`. -/
def symW (m : SpillMatrix) (cs : List String) (row : String → Option ℚ) (i j : ℕ) : ℚ :=
  max ((row (cs.getD j "")).getD 0) (((m (cs.getD j "")).bind fun r => r (cs.getD i "")).getD 0)

/-- One iteration of `buildSymmetricAdjacency`'s outer loop: if row `i` is
absent the whole inner loop is skipped (`if (!row) continue`); otherwise write
`adj[i][j] = adj[j][i] = max(forward, backward)` for every `j > i`. -/
def adjOuterStep (m : SpillMatrix) (cs : List String) (adj : ℕ → ℕ → ℚ) (i : ℕ) :
    ℕ → ℕ → ℚ :=
  match m (cs.getD i "") with
  | none => adj
  | some row =>
      (List.range' (i + 1) (cs.length - (i + 1))).foldl
        (fun a j => upd2 a i j (symW m cs row i j)) adj

/-- `buildSymmetricAdjacency` from `graph-algorithms.ts`: starts from the
all-zero `n × n` array and runs the outer loop over `i < n`. -/
def buildSymmetricAdjacency (m : SpillMatrix) (cs : List String) : ℕ → ℕ → ℚ :=
  (List.range cs.length).foldl (adjOuterStep m cs) (fun _ _ => 0)

/-- The `GraphEdge` record from `graph-algorithms.ts`. -/
structure GraphEdge where
  source : ℕ
  target : ℕ
  sourceCode : String
  targetCode : String
  weight : ℚ
  normalizedWeight : ℚ
deriving DecidableEq, Repr

/-- One entry of `buildEdgeList`'s first-pass `rawEdges` array. -/
structure RawEdge where
  ri : ℕ
  rj : ℕ
  rw : ℚ
deriving DecidableEq, Repr

/-- First pass of `buildEdgeList`: for every pair `i < j` whose row `i` is
present, keep the pair when `w = max(forward, backward) ≥ minWeight`. -/
def rawEdges (m : SpillMatrix) (cs : List String) (minW : ℚ) : List RawEdge :=
  (List.range cs.length).flatMap fun i =>
    match m (cs.getD i "") with
    | none => []
    | some row =>
        (List.range' (i + 1) (cs.length - (i + 1))).filterMap fun j =>
          let w := symW m cs row i j
          if minW ≤ w then some ⟨i, j, w⟩ else none

/-- The running maximum `maxWeight` of `buildEdgeList`'s first pass
(initialised to `0`, updated over the kept pairs). -/
def maxRawWeight (m : SpillMatrix) (cs : List String) (minW : ℚ) : ℚ :=
  (rawEdges m cs minW).foldl (fun acc r => max acc r.rw) 0

/-- Second pass of `buildEdgeList`: emit a `GraphEdge` per kept pair with
`normalizedWeight = maxWeight > 0 ? w / maxWeight : 0`. -/
def buildEdgeList (m : SpillMatrix) (cs : List String) (minW : ℚ) : List GraphEdge :=
  (rawEdges m cs minW).map fun r =>
    { source := r.ri
      target := r.rj
      sourceCode := cs.getD r.ri ""
      targetCode := cs.getD r.rj ""
      weight := r.rw
      normalizedWeight :=
        if 0 < maxRawWeight m cs minW then r.rw / maxRawWeight m cs minW else 0 }



/-- `totalWeight` of `louvainCommunities`: the sum of the upper triangle
`adj[i][j]`, `i < j < n`, accumulated in loop order. -/
def louvainTotalWeight (adj : ℕ → ℕ → ℚ) (n : ℕ) : ℚ :=
  (List.range n).foldl
    (fun acc i => (List.range' (i + 1) (n - (i + 1))).foldl (fun a j => a + adj i j) acc) 0

/-- Weighted degree `degree[i]`: the full row sum of the adjacency matrix. -/
def louvainDegree (adj : ℕ → ℕ → ℚ) (n : ℕ) (i : ℕ) : ℚ :=
  (List.range n).foldl (fun a j => a + adj i j) 0

/-- The JS `Map.set`-with-accumulation used to build `neighborComms`:
add `w` to the entry for key `c`, preserving insertion order, appending a new
entry when the key is absent. -/
def addWeight (l : List (ℕ × ℚ)) (c : ℕ) (w : ℚ) : List (ℕ × ℚ) :=
  match l with
  | [] => [(c, w)]
  | (c', w') :: rest => if c' = c then (c', w' + w) :: rest else (c', w') :: addWeight rest c w

/-- `neighborComms.get(c) ?? 0`. -/
def lookupD (l : List (ℕ × ℚ)) (c : ℕ) : ℚ :=
  match l with
  | [] => 0
  | (c', w') :: rest => if c' = c then w' else lookupD rest c

/-- The mutable state of the Louvain optimization loop. -/
structure LouvainState where
  community : List ℕ
  sigmaTot : ℕ → ℚ
  sigmaIn : ℕ → ℚ
  moved : Bool

/-- The body of Louvain's inner `for (let i = 0; i < n; i++)` loop: tally the
weights from `i` into neighbouring communities (insertion order of the JS
`Map`), remove `i` from its community, pick the neighbouring community with
the strictly greatest positive modularity gain (ties keep the earlier entry),
and re-insert `i` there. -/
def louvainNodeStep (adj : ℕ → ℕ → ℚ) (n : ℕ) (m2 : ℚ) (degree : ℕ → ℚ)
    (st : LouvainState) (i : ℕ) : LouvainState :=
  let currentComm := st.community.getD i 0
  let neighborComms := (List.range n).foldl
    (fun acc j =>
      if 0 < adj i j ∧ i ≠ j then addWeight acc (st.community.getD j 0) (adj i j) else acc) []
  let ki := degree i
  let kiIn := lookupD neighborComms currentComm
  let sigmaTot1 := Function.update st.sigmaTot currentComm (st.sigmaTot currentComm - ki)
  let sigmaIn1 := Function.update st.sigmaIn currentComm (st.sigmaIn currentComm - 2 * kiIn)
  let best := neighborComms.foldl
    (fun (bc : ℕ × ℚ) cw =>
      let delta := cw.2 - sigmaTot1 cw.1 * ki / m2
      if bc.2 < delta then (cw.1, delta) else bc)
    (currentComm, 0)
  let bestComm := best.1
  let kiBest := lookupD neighborComms bestComm
  { community := st.community.set i bestComm
    sigmaTot := Function.update sigmaTot1 bestComm (sigmaTot1 bestComm + ki)
    sigmaIn := Function.update sigmaIn1 bestComm (sigmaIn1 bestComm + 2 * kiBest)
    moved := st.moved || bestComm != currentComm }

/-- One full pass over all nodes (the body of the outer iteration), starting
with `moved = false`. -/
def louvainPass (adj : ℕ → ℕ → ℚ) (n : ℕ) (m2 : ℚ) (degree : ℕ → ℚ)
    (st : LouvainState) : LouvainState :=
  (List.range n).foldl (louvainNodeStep adj n m2 degree) { st with moved := false }

/-- The bounded optimization loop (`MAX_ITERATIONS = 15`, early exit when a
pass makes no move). -/
def louvainLoop (adj : ℕ → ℕ → ℚ) (n : ℕ) (m2 : ℚ) (degree : ℕ → ℚ) :
    ℕ → LouvainState → LouvainState
  | 0, st => st
  | t + 1, st =>
      let st' := louvainPass adj n m2 degree st
      if st'.moved then louvainLoop adj n m2 degree t st' else st'

/-- `[...new Set(community)]`: deduplication preserving first-occurrence
(insertion) order, as a JS `Set` does. -/
def uniqFirst (l : List ℕ) : List ℕ :=
  l.foldl (fun acc c => if c ∈ acc then acc else acc ++ [c]) []

/-- The final Louvain state: the loop run with `m2 = totalWeight * 2`,
row-sum degrees, singleton initial communities, `sigmaTot = degree`,
`sigmaIn = 0`, for up to 15 passes. -/
def louvainFinal (adj : ℕ → ℕ → ℚ) (n : ℕ) : LouvainState :=
  louvainLoop adj n (louvainTotalWeight adj n * 2) (louvainDegree adj n) 15
    ⟨List.range n, louvainDegree adj n, fun _ => 0, false⟩

/-- `louvainCommunities` from `graph-algorithms.ts`: the zero-total-weight
fallback `i % 4`, otherwise the optimization loop followed by renumbering the
surviving ids to `0..k-1` in first-occurrence order. -/
def louvainCommunities (adj : ℕ → ℕ → ℚ) (n : ℕ) : List ℕ :=
  if louvainTotalWeight adj n = 0 then (List.range n).map (fun i => i % 4)
  else
    (louvainFinal adj n).community.map fun c =>
      (uniqFirst (louvainFinal adj n).community).indexOf c



/-- The edge-inclusion test of the BFS inner loop: the code skips `w` when
`adj[v][w] < threshold || v === w`, so the traversal proceeds exactly when
`¬(adj v w < thr) ∧ v ≠ w`.  This predicate is the only way
`betweennessCentrality` reads the adjacency matrix. -/
def edgeOk (adj : ℕ → ℕ → ℚ) (thr : ℚ) (v w : ℕ) : Bool :=
  !(decide (adj v w < thr) || decide (v = w))

/-- The per-source mutable state of Brandes' algorithm. -/
structure BrandesState where
  stack : List ℕ
  pred : ℕ → List ℕ
  sigma : ℕ → ℚ
  dist : ℕ → ℤ
  queue : List ℕ

/-- First-discovery handling of the BFS inner loop: when `dist[w] < 0`,
enqueue `w` and set `dist[w] = dist[v] + 1`. -/
def bfsEnqueue (v w : ℕ) (st : BrandesState) : BrandesState :=
  if st.dist w < 0 then
    { st with queue := st.queue ++ [w], dist := Function.update st.dist w (st.dist v + 1) }
  else st

/-- Shortest-path accumulation of the BFS inner loop: when
`dist[w] === dist[v] + 1`, add `sigma[v]` to `sigma[w]` and record `v` as a
predecessor of `w`. -/
def bfsRelax (v w : ℕ) (st : BrandesState) : BrandesState :=
  if st.dist w = st.dist v + 1 then
    { st with
      sigma := Function.update st.sigma w (st.sigma w + st.sigma v)
      pred := Function.update st.pred w (st.pred w ++ [v]) }
  else st

/-- The body of the BFS inner loop `for (let w = 0; w < n; w++)` for the
dequeued node `v`: skip unless the edge is included; enqueue `w` on first
discovery, then accumulate path counts and predecessors. -/
def bfsInner (p : ℕ → ℕ → Bool) (v : ℕ) (st : BrandesState) (w : ℕ) : BrandesState :=
  if p v w then bfsRelax v w (bfsEnqueue v w st) else st

/-- The BFS `while (queue.length > 0)` loop, with fuel: each iteration
dequeues one node, pushes it on the stack and scans all `n` candidates.
Every node is enqueued at most once (enqueueing requires `dist[w] < 0` and
immediately makes it non-negative), so `n` units of fuel always suffice. -/
def bfsLoop (p : ℕ → ℕ → Bool) (n : ℕ) : ℕ → BrandesState → BrandesState
  | 0, st => st
  | fuel + 1, st =>
      match st.queue with
      | [] => st
      | v :: rest =>
          bfsLoop p n fuel
            ((List.range n).foldl (bfsInner p v) { st with queue := rest, stack := st.stack ++ [v] })

/-- The back-propagation `while (stack.length > 0)` loop for source `s`,
processed in reverse push order: each popped `w` distributes dependency to its
predecessors and (when `w ≠ s`) adds `delta[w]` to the running scores. -/
def backProp (s : ℕ) (pred : ℕ → List ℕ) (sigma : ℕ → ℚ)
    (popOrder : List ℕ) (delta : ℕ → ℚ) (bc : ℕ → ℚ) : (ℕ → ℚ) × (ℕ → ℚ) :=
  match popOrder with
  | [] => (delta, bc)
  | w :: rest =>
      let delta' := (pred w).foldl
        (fun d v => Function.update d v (d v + sigma v / sigma w * (1 + d w))) delta
      let bc' := if w ≠ s then Function.update bc w (bc w + delta' w) else bc
      backProp s pred sigma rest delta' bc'

/-- One single-source traversal of Brandes' algorithm: BFS from `s`, then
back-propagation, returning the updated raw score accumulator. -/
def brandesSource (p : ℕ → ℕ → Bool) (n : ℕ) (bc : ℕ → ℚ) (s : ℕ) : ℕ → ℚ :=
  let st0 : BrandesState :=
    ⟨[], fun _ => [], Function.update (fun _ => 0) s 1, Function.update (fun _ => -1) s 0, [s]⟩
  let stF := bfsLoop p n n st0
  (backProp s stF.pred stF.sigma stF.stack.reverse (fun _ => 0) bc).2

/-- The raw (unnormalised) betweenness scores `bc`, accumulated over all `n`
sources. -/
def bcRaw (p : ℕ → ℕ → Bool) (n : ℕ) : List ℚ :=
  (List.range n).map ((List.range n).foldl (brandesSource p n) (fun _ => 0))

/-- `betweennessCentrality` from `graph-algorithms.ts`:
`maxBC = Math.max(...bc, 1e-10)`, result `bc.map(v => v / maxBC)`. -/
def betweennessCentrality (adj : ℕ → ℕ → ℚ) (n : ℕ) (thr : ℚ) : List ℚ :=
  let raw := bcRaw (edgeOk adj thr) n
  let maxBC := raw.foldl max (1 / 10000000000)
  raw.map fun v => v / maxBC



/-- The `FA2Node` record from `force-atlas2.ts`. -/
structure FA2Node where
  x : ℝ
  y : ℝ
  dx : ℝ
  dy : ℝ
  oldDx : ℝ
  oldDy : ℝ
  mass : ℝ
  convergence : ℝ

instance : Inhabited FA2Node := ⟨⟨0, 0, 0, 0, 0, 0, 0, 0⟩⟩

/-- The `FA2Edge` record from `force-atlas2.ts`. -/
structure FA2Edge where
  source : ℕ
  target : ℕ
  weight : ℝ

/-- The `FA2Config` record; `fa2Iterate` receives the caller's partial config
already merged over `DEFAULT_CONFIG`. -/
structure FA2Config where
  scalingRatio : ℝ
  gravity : ℝ
  edgeWeightInfluence : ℝ
  linLogMode : Bool
  strongGravity : Bool
  outboundAttractionDistribution : Bool
  slowingRatio : ℝ
  jitterTolerance : ℝ

/-- `DEFAULT_CONFIG` from `force-atlas2.ts`. -/
def defaultConfig : FA2Config := ⟨10, 1, 1, true, false, false, 2, 1⟩

/-- The distance expression `Math.sqrt(dx*dx + dy*dy) || 0.01` used by the
repulsion, attraction and gravity force computations: a zero distance is
replaced by `0.01` (the square root of a sum of squares is never `NaN` and is
falsy exactly when it is `0`). -/
noncomputable def fa2Dist (dx dy : ℝ) : ℝ :=
  let d := Real.sqrt (dx * dx + dy * dy)
  if d = 0 then 0.01 else d

/-- The phase multiplier computed from `progress = frame / totalFrames`. -/
noncomputable def phaseMultiplier (frame totalFrames : ℕ) : ℝ :=
  let progress := (frame : ℝ) / (totalFrames : ℝ)
  if progress < 0.2 then 2
  else if progress < 0.67 then 1
  else 0.3 + 0.7 * (1 - (progress - 0.67) / 0.33)

/-- The unordered index pairs `(i, j)`, `i < j < n`, in the iteration order of
the nested `for (i) for (j = i+1)` loops. -/
def pairsUpTo (n : ℕ) : List (ℕ × ℕ) :=
  (List.range n).flatMap fun i => (List.range' (i + 1) (n - (i + 1))).map fun j => (i, j)

/-- Reset step: save `dx/dy` into `oldDx/oldDy` and zero the accumulators. -/
def resetPhase (ns : List FA2Node) : List FA2Node :=
  ns.map fun nd => { nd with oldDx := nd.dx, oldDy := nd.dy, dx := 0, dy := 0 }

/-- Add `(fx, fy)` to node `i`'s force accumulator (`nodes[i].dx += fx` etc.). -/
def addForce (ns : List FA2Node) (i : ℕ) (fx fy : ℝ) : List FA2Node :=
  match ns.get? i with
  | none => ns
  | some nd => ns.set i { nd with dx := nd.dx + fx, dy := nd.dy + fy }

/-- One repulsion pair: `force = scaled * mass_i * mass_j / dist` pushing the
pair apart (`scaled = scalingRatio * phaseMultiplier`). -/
noncomputable def repulsionStep (scaled : ℝ) (ns : List FA2Node) (pr : ℕ × ℕ) : List FA2Node :=
  let ni := ns.getD pr.1 default
  let nj := ns.getD pr.2 default
  let dx := nj.x - ni.x
  let dy := nj.y - ni.y
  let dist := fa2Dist dx dy
  let force := scaled * ni.mass * nj.mass / dist
  let fx := dx / dist * force
  let fy := dy / dist * force
  addForce (addForce ns pr.1 (-fx) (-fy)) pr.2 fx fy

/-- Repulsion over all unordered pairs. -/
noncomputable def repulsionPhase (ns : List FA2Node) (scaled : ℝ) : List FA2Node :=
  (pairsUpTo ns.length).foldl (repulsionStep scaled) ns

/-- One attraction edge: LinLog mode uses `log(1 + dist) * weight^influence`,
linear mode `dist * weight^influence`, optionally divided by the source mass,
pulling the endpoints together. -/
noncomputable def attractionStep (cfg : FA2Config) (ns : List FA2Node) (e : FA2Edge) :
    List FA2Node :=
  let s := ns.getD e.source default
  let t := ns.getD e.target default
  let dx := t.x - s.x
  let dy := t.y - s.y
  let dist := fa2Dist dx dy
  let force0 :=
    if cfg.linLogMode then Real.log (1 + dist) * e.weight ^ cfg.edgeWeightInfluence
    else dist * e.weight ^ cfg.edgeWeightInfluence
  let force := if cfg.outboundAttractionDistribution then force0 / s.mass else force0
  let fx := dx / dist * force
  let fy := dy / dist * force
  addForce (addForce ns e.source fx fy) e.target (-fx) (-fy)

/-- Attraction over the edge list. -/
noncomputable def attractionPhase (ns : List FA2Node) (es : List FA2Edge) (cfg : FA2Config) :
    List FA2Node :=
  es.foldl (attractionStep cfg) ns

/-- Gravity toward the fixed center `(500, 300)`, scaled by the phase
multiplier; strong gravity drops the `1/dist` factor. -/
noncomputable def gravityPhase (ns : List FA2Node) (cfg : FA2Config) (pm : ℝ) : List FA2Node :=
  ns.map fun nd =>
    let dx := nd.x - 500
    let dy := nd.y - 300
    let dist := fa2Dist dx dy
    let gravForce :=
      if cfg.strongGravity then cfg.gravity * nd.mass else cfg.gravity * nd.mass / dist
    { nd with dx := nd.dx - dx / dist * gravForce * pm, dy := nd.dy - dy / dist * gravForce * pm }

/-- `swinging`: the magnitude of the difference between the current and the
previous force accumulator. -/
noncomputable def swingingOf (nd : FA2Node) : ℝ :=
  Real.sqrt ((nd.dx - nd.oldDx) ^ 2 + (nd.dy - nd.oldDy) ^ 2)

/-- `effectiveTraction`: half the magnitude of the sum of the current and the
previous force accumulator. -/
noncomputable def tractionOf (nd : FA2Node) : ℝ :=
  Real.sqrt ((nd.dx + nd.oldDx) ^ 2 + (nd.dy + nd.oldDy) ^ 2) / 2

/-- Adaptive-speed step: recompute every node's `convergence` as
`min(1, jitterTolerance² * effectiveTraction / (swinging + 0.01))`. -/
noncomputable def adaptivePhase (ns : List FA2Node) (cfg : FA2Config) : List FA2Node :=
  ns.map fun nd =>
    { nd with
      convergence :=
        min 1 (cfg.jitterTolerance * cfg.jitterTolerance * tractionOf nd /
          (swingingOf nd + 0.01)) }

/-- The global speed `jitterTolerance² * Σ(mass·effectiveTraction) /
(Σ(mass·swinging) + 0.01)` (before the clamp at 10). -/
noncomputable def globalSpeed (ns : List FA2Node) (cfg : FA2Config) : ℝ :=
  cfg.jitterTolerance * cfg.jitterTolerance *
      (ns.foldl (fun a nd => a + nd.mass * tractionOf nd) 0) /
    ((ns.foldl (fun a nd => a + nd.mass * swingingOf nd) 0) + 0.01)

/-- Displacement application: skip motionless nodes, otherwise move by the
accumulated force scaled by the node speed, with the step magnitude capped at
10 units. -/
noncomputable def displacePhase (ns : List FA2Node) (cfg : FA2Config) : List FA2Node :=
  let clamped := min (globalSpeed ns cfg) 10
  ns.map fun nd =>
    let disp := Real.sqrt (nd.dx ^ 2 + nd.dy ^ 2)
    if disp ≤ 0 then nd
    else
      let nodeSpeed := clamped * nd.convergence / cfg.slowingRatio
      let limitedSpeed := min (nodeSpeed * disp) 10 / disp
      { nd with x := nd.x + nd.dx * limitedSpeed, y := nd.y + nd.dy * limitedSpeed }

/-- Overwrite a node's position, keeping every other field. -/
def setPos (nd : FA2Node) (px py : ℝ) : FA2Node := { nd with x := px, y := py }

/-- One overlap-correction pair: when `dist < 65 && dist > 0.01`, push both
nodes apart by half the deficit along the connecting line. -/
noncomputable def overlapStep (ns : List FA2Node) (pr : ℕ × ℕ) : List FA2Node :=
  let a := ns.getD pr.1 default
  let b := ns.getD pr.2 default
  let dx := b.x - a.x
  let dy := b.y - a.y
  let dist := Real.sqrt (dx * dx + dy * dy)
  if dist < 65 ∧ 0.01 < dist then
    let push := (65 - dist) * 0.5
    let ux := dx / dist * push
    let uy := dy / dist * push
    (ns.set pr.1 (setPos a (a.x - ux) (a.y - uy))).set pr.2 (setPos b (b.x + ux) (b.y + uy))
  else ns

/-- Overlap correction over all unordered pairs. -/
noncomputable def overlapPhase (ns : List FA2Node) : List FA2Node :=
  (pairsUpTo ns.length).foldl overlapStep ns

/-- Soft bounds: pull nodes outside `[60, 940] × [60, 540]` back by a factor
`0.6` of the overflow (the two `if`s per axis are applied sequentially). -/
noncomputable def boundsPhase (ns : List FA2Node) : List FA2Node :=
  ns.map fun nd =>
    let x1 := if nd.x < 60 then nd.x + (60 - nd.x) * 0.6 else nd.x
    let x2 := if x1 > 940 then x1 - (x1 - 940) * 0.6 else x1
    let y1 := if nd.y < 60 then nd.y + (60 - nd.y) * 0.6 else nd.y
    let y2 := if y1 > 540 then y1 - (y1 - 540) * 0.6 else y1
    { nd with x := x2, y := y2 }

/-- The node state after the three force phases of `fa2Iterate` (reset,
repulsion, attraction, gravity). -/
noncomputable def fa2AfterForces (ns : List FA2Node) (es : List FA2Edge) (cfg : FA2Config)
    (frame totalFrames : ℕ) : List FA2Node :=
  let pm := phaseMultiplier frame totalFrames
  gravityPhase
    (attractionPhase (repulsionPhase (resetPhase ns) (cfg.scalingRatio * pm)) es cfg) cfg pm

/-- The node state after the adaptive-speed and displacement-application
phases of `fa2Iterate`. -/
noncomputable def fa2AfterDisplacement (ns : List FA2Node) (es : List FA2Edge) (cfg : FA2Config)
    (frame totalFrames : ℕ) : List FA2Node :=
  displacePhase (adaptivePhase (fa2AfterForces ns es cfg frame totalFrames) cfg) cfg

/-- `fa2Iterate` from `force-atlas2.ts`: one full simulation step (forces,
adaptive speed, displacement, overlap correction, soft bounds). -/
noncomputable def fa2Iterate (ns : List FA2Node) (es : List FA2Edge) (cfg : FA2Config)
    (frame totalFrames : ℕ) : List FA2Node :=
  boundsPhase (overlapPhase (fa2AfterDisplacement ns es cfg frame totalFrames))

/-- Euclidean distance between two layout nodes. -/
noncomputable def nodeDist (a b : FA2Node) : ℝ :=
  Real.sqrt ((b.x - a.x) * (b.x - a.x) + (b.y - a.y) * (b.y - a.y))

/-- The force-accumulator fields of a node (everything except position):
current and previous accumulators and the convergence factor. -/
def accOf (nd : FA2Node) : ℝ × ℝ × ℝ × ℝ × ℝ :=
  (nd.dx, nd.dy, nd.oldDx, nd.oldDy, nd.convergence)

/-- Two node lists agreeing everywhere on the accumulator fields. -/
def accsEq (ns1 ns2 : List FA2Node) : Prop :=
  ns1.length = ns2.length ∧ ∀ i : ℕ, (ns1[i]?).map accOf = (ns2[i]?).map accOf

/-- A spillover mapping with a `"B" → "A"` weight but no row for `"A"`,
exhibiting the row-skip behaviour of `buildSymmetricAdjacency`. -/
def mC1 : SpillMatrix :=
  fun c => if c = "B" then some (fun d => if d = "A" then some 1 else none) else none

/-- A spillover mapping with a single zero-weight entry `"A" → "B"`,
exhibiting the zero-maximum behaviour of `buildEdgeList`. -/
def mC7 : SpillMatrix :=
  fun c => if c = "A" then some (fun d => if d = "B" then some 0 else none) else none

/-- A layout node resting at the gravity center `(500, 300)` with zero force
accumulators and unit mass. -/
def centerNode : FA2Node := ⟨500, 300, 0, 0, 0, 0, 1, 1⟩

/-- A spillover mapping with a single positive entry `"A" → "B" = 5`. -/
def mC7pos : SpillMatrix :=
  fun c => if c = "A" then some (fun d => if d = "B" then some 5 else none) else none

/-- Claim C9: in every force computation inside `fa2Iterate` (repulsion,
attraction, gravity), the distance used as a divisor is the expression
`fa2Dist`, and it is strictly positive for every pair of coordinate
differences: a zero inter-node (or node-to-center) distance is replaced by
`0.01` before any division, so no division by zero occurs. -/
theorem c9_positive_distance (dx dy : ℝ) : 0 < fa2Dist dx dy := by
  unfold fa2Dist
  by_cases h : Real.sqrt (dx * dx + dy * dy) = 0
  · simp only [h, if_pos]
    norm_num
  · simp only [h, if_neg, if_false]
    exact lt_of_le_of_ne (Real.sqrt_nonneg _) (Ne.symm h)

/-- Claim C4: whenever the upper-triangle total weight is exactly zero,
`louvainCommunities` skips the optimization and returns `community[i] = i % 4`
for every index. -/
theorem c4_zero_weight_fallback (adj : ℕ → ℕ → ℚ) (n : ℕ)
    (h : louvainTotalWeight adj n = 0) :
    louvainCommunities adj n = (List.range n).map fun i => i % 4 := by
  unfold louvainCommunities
  rw [if_pos h]

/-- Witness for C4: the all-zero matrix over `n = 6` nodes has zero total
weight and yields exactly `[0, 1, 2, 3, 0, 1]`. -/
theorem c4_witness :
    louvainTotalWeight (fun _ _ => (0 : ℚ)) 6 = 0 ∧
      louvainCommunities (fun _ _ => (0 : ℚ)) 6 = [0, 1, 2, 3, 0, 1] :=
  have h0 : louvainTotalWeight (fun _ _ => (0 : ℚ)) 6 = 0 := by with_unfolding_all decide
  ⟨h0, (c4_zero_weight_fallback (fun _ _ => (0 : ℚ)) 6 h0).trans (by decide)⟩


theorem upd2_eq_of_ne (adj : ℕ → ℕ → ℚ) (i j w a b)
    (h : ¬((a = i ∧ b = j) ∨ (a = j ∧ b = i))) : upd2 adj i j w a b = adj a b :=
  if_neg h

theorem upd2_self (adj : ℕ → ℕ → ℚ) (i j w) : upd2 adj i j w i j = w :=
  if_pos (Or.inl ⟨rfl, rfl⟩)

theorem foldl_upd2_untouched (i : ℕ) (w : ℕ → ℚ) (L : List ℕ) (adj : ℕ → ℕ → ℚ) (a b : ℕ)
    (h : ∀ j ∈ L, ¬((a = i ∧ b = j) ∨ (a = j ∧ b = i))) :
    (L.foldl (fun ac j => upd2 ac i j (w j)) adj) a b = adj a b := by
  induction L generalizing adj with
  | nil => rfl
  | cons x xs ih =>
      simp only [List.foldl_cons]
      rw [ih _ fun j hj => h j (List.mem_cons_of_mem _ hj)]
      exact upd2_eq_of_ne adj i x (w x) a b (h x (List.mem_cons_self _ _))

theorem foldl_upd2_hit (i : ℕ) (w : ℕ → ℚ) (L : List ℕ) (adj : ℕ → ℕ → ℚ) (j : ℕ)
    (hm : j ∈ L) (hnd : L.Nodup) (hni : i ∉ L) :
    (L.foldl (fun ac j' => upd2 ac i j' (w j')) adj) i j = w j := by
  induction L generalizing adj with
  | nil => cases hm
  | cons x xs ih =>
      simp only [List.foldl_cons]
      rcases List.mem_cons.mp hm with hx | hxs
      · subst hx
        rw [foldl_upd2_untouched]
        · exact upd2_self adj i j (w j)
        · intro j' hj'
          rintro (⟨-, rfl⟩ | ⟨rfl, -⟩)
          · exact (List.nodup_cons.mp hnd).1 hj'
          · exact hni (List.mem_cons_of_mem _ hj')
      · exact ih _ hxs (List.nodup_cons.mp hnd).2
          fun hc => hni (List.mem_cons_of_mem _ hc)

theorem adjOuterStep_untouched (m : SpillMatrix) (cs : List String) (adj : ℕ → ℕ → ℚ)
    (t a b : ℕ) (h : ∀ j', t < j' → ¬((a = t ∧ b = j') ∨ (a = j' ∧ b = t))) :
    adjOuterStep m cs adj t a b = adj a b := by
  unfold adjOuterStep
  cases m (cs.getD t "") with
  | none => rfl
  | some row =>
      exact foldl_upd2_untouched t _ _ adj a b fun j' hj' =>
        h j' (by have := List.mem_range'_1.mp hj'; omega)

theorem foldl_outer_untouched (m : SpillMatrix) (cs : List String) (T : List ℕ)
    (adj : ℕ → ℕ → ℚ) (i j : ℕ) (hij : i < j) (hi : i ∉ T) :
    (T.foldl (adjOuterStep m cs) adj) i j = adj i j := by
  induction T generalizing adj with
  | nil => rfl
  | cons t ts ih =>
      simp only [List.foldl_cons]
      rw [ih _ fun h => hi (List.mem_cons_of_mem _ h)]
      apply adjOuterStep_untouched
      intro j' hj'
      rintro (⟨h1, h2⟩ | ⟨h1, h2⟩)
      · exact hi (h1 ▸ List.mem_cons_self _ _)
      · omega

theorem adjOuterStep_none (m : SpillMatrix) (cs : List String) (adj : ℕ → ℕ → ℚ) (i : ℕ)
    (hm : m (cs.getD i "") = none) : adjOuterStep m cs adj i = adj := by
  unfold adjOuterStep
  rw [hm]

theorem adjOuterStep_some (m : SpillMatrix) (cs : List String) (adj : ℕ → ℕ → ℚ) (i : ℕ)
    (row : String → Option ℚ) (hm : m (cs.getD i "") = some row) :
    adjOuterStep m cs adj i =
      (List.range' (i + 1) (cs.length - (i + 1))).foldl
        (fun a j => upd2 a i j (symW m cs row i j)) adj := by
  unfold adjOuterStep
  rw [hm]

theorem buildSymmetricAdjacency_spec (m : SpillMatrix) (cs : List String) (i j : ℕ)
    (hij : i < j) (hj : j < cs.length) :
    buildSymmetricAdjacency m cs i j =
      match m (cs.getD i "") with
      | none => 0
      | some row => symW m cs row i j := by
  unfold buildSymmetricAdjacency
  have hin : i < cs.length := lt_trans hij hj
  have hdec : List.range cs.length =
      List.range' 0 i ++ i :: List.range' (i + 1) (cs.length - (i + 1)) := by
    rw [List.range_eq_range']
    have h1 := List.range'_append 0 i (cs.length - i) 1
    simp only [one_mul, Nat.zero_add] at h1
    rw [show cs.length - i + i = cs.length from by omega] at h1
    rw [← h1, show cs.length - i = cs.length - (i + 1) + 1 from by omega, List.range'_succ]
  rw [hdec, List.foldl_append, List.foldl_cons]
  rw [foldl_outer_untouched m cs _ _ i j hij
    (by intro h; have := List.mem_range'_1.mp h; omega)]
  have hzero :
      (List.foldl (adjOuterStep m cs) (fun _ _ => (0 : ℚ)) (List.range' 0 i)) i j = 0 :=
    foldl_outer_untouched m cs _ _ i j hij
      (by intro h; have := List.mem_range'_1.mp h; omega)
  cases hm : m (cs.getD i "") with
  | none => rw [adjOuterStep_none m cs _ i hm]; exact hzero
  | some row =>
      rw [adjOuterStep_some m cs _ i row hm]
      rw [foldl_upd2_hit i _ _ _ j ?_ ?_ ?_]
      · exact List.mem_range'_1.mpr (by omega)
      · exact List.nodup_range' _ _
      · intro h
        have := List.mem_range'_1.mp h
        omega

/-- Claim C1 (amended): `adj[i][j]` for `i < j < n` equals
`max(forward(i,j), backward(j,i))` (missing entries defaulting to 0) only
when the row of the smaller-indexed code is present in the mapping; when
`matrix[countries[i]]` is absent the pair is skipped entirely and
`adj[i][j] = 0`, even if `matrix[countries[j]][countries[i]]` is present. -/
theorem c1_rowSkip_adjacency (m : SpillMatrix) (cs : List String) (i j : ℕ)
    (hij : i < j) (hj : j < cs.length) :
    buildSymmetricAdjacency m cs i j =
      match m (cs.getD i "") with
      | none => 0
      | some row =>
          max ((row (cs.getD j "")).getD 0)
            (((m (cs.getD j "")).bind fun r => r (cs.getD i "")).getD 0) :=
  buildSymmetricAdjacency_spec m cs i j hij hj

/-- Counterexample for C1 as frozen: with codes `["A", "B"]` and only the row
`"B" → {"A": 1}` present, the backward weight is `1`, but the returned matrix
has `adj[0][1] = 0`, not `max(forward, backward) = 1`. -/
theorem c1_counterexample :
    ((mC1 "B").bind fun r => r "A").getD 0 = 1 ∧
      buildSymmetricAdjacency mC1 ["A", "B"] 0 1 ≠
        max (((mC1 "A").bind fun r => r "B").getD 0)
          (((mC1 "B").bind fun r => r "A").getD 0) := by
  refine ⟨by decide, by decide⟩

/-- Witness for C1's amended theorem at a concrete input: codes `["A", "B"]`
with only row `"B"` present give `adj[0][1] = 0` via the row-skip branch. -/
theorem c1_witness :
    0 < 1 ∧ 1 < (["A", "B"] : List String).length ∧
      buildSymmetricAdjacency mC1 ["A", "B"] 0 1 =
        match mC1 (["A", "B"].getD 0 "") with
        | none => 0
        | some row =>
            max ((row (["A", "B"].getD 1 "")).getD 0)
              (((mC1 (["A", "B"].getD 1 "")).bind fun r => r (["A", "B"].getD 0 "")).getD 0) :=
  ⟨by decide, by decide, c1_rowSkip_adjacency mC1 ["A", "B"] 0 1 (by decide) (by decide)⟩

theorem upd2_preserves (adj : ℕ → ℕ → ℚ) (i j : ℕ) (w : ℚ) (hij : i ≠ j)
    (hsym : ∀ a b, adj a b = adj b a) (hdiag : ∀ a, adj a a = 0) :
    (∀ a b, upd2 adj i j w a b = upd2 adj i j w b a) ∧ ∀ a, upd2 adj i j w a a = 0 := by
  constructor
  · intro a b
    unfold upd2
    exact if_congr (by tauto) rfl (hsym a b)
  · intro a
    unfold upd2
    rw [if_neg]
    · exact hdiag a
    · rintro (⟨rfl, rfl⟩ | ⟨rfl, rfl⟩) <;> exact hij rfl

theorem foldl_upd2_preserves (i : ℕ) (w : ℕ → ℚ) (L : List ℕ) (adj : ℕ → ℕ → ℚ)
    (hL : ∀ j ∈ L, i ≠ j)
    (hsym : ∀ a b, adj a b = adj b a) (hdiag : ∀ a, adj a a = 0) :
    (∀ a b, (L.foldl (fun ac j => upd2 ac i j (w j)) adj) a b =
        (L.foldl (fun ac j => upd2 ac i j (w j)) adj) b a) ∧
      ∀ a, (L.foldl (fun ac j => upd2 ac i j (w j)) adj) a a = 0 := by
  induction L generalizing adj with
  | nil => exact ⟨hsym, hdiag⟩
  | cons x xs ih =>
      simp only [List.foldl_cons]
      have h := upd2_preserves adj i x (w x) (hL x (List.mem_cons_self _ _)) hsym hdiag
      exact ih _ (fun j hj => hL j (List.mem_cons_of_mem _ hj)) h.1 h.2

theorem adjOuterStep_preserves (m : SpillMatrix) (cs : List String) (adj : ℕ → ℕ → ℚ) (t : ℕ)
    (hsym : ∀ a b, adj a b = adj b a) (hdiag : ∀ a, adj a a = 0) :
    (∀ a b, adjOuterStep m cs adj t a b = adjOuterStep m cs adj t b a) ∧
      ∀ a, adjOuterStep m cs adj t a a = 0 := by
  cases hm : m (cs.getD t "") with
  | none => rw [adjOuterStep_none m cs adj t hm]; exact ⟨hsym, hdiag⟩
  | some row =>
      rw [adjOuterStep_some m cs adj t row hm]
      exact foldl_upd2_preserves t _ _ adj
        (fun j hj => by have := List.mem_range'_1.mp hj; omega) hsym hdiag

theorem foldl_outer_preserves (m : SpillMatrix) (cs : List String) (T : List ℕ)
    (adj : ℕ → ℕ → ℚ)
    (hsym : ∀ a b, adj a b = adj b a) (hdiag : ∀ a, adj a a = 0) :
    (∀ a b, (T.foldl (adjOuterStep m cs) adj) a b = (T.foldl (adjOuterStep m cs) adj) b a) ∧
      ∀ a, (T.foldl (adjOuterStep m cs) adj) a a = 0 := by
  induction T generalizing adj with
  | nil => exact ⟨hsym, hdiag⟩
  | cons t ts ih =>
      simp only [List.foldl_cons]
      have h := adjOuterStep_preserves m cs adj t hsym hdiag
      exact ih _ h.1 h.2

/-- Claim C8: for every spillover mapping and code list, the matrix returned
by `buildSymmetricAdjacency` is symmetric (`adj[i][j] = adj[j][i]` for all
`i, j`) and has a zero diagonal (`adj[i][i] = 0` for all `i`). -/
theorem c8_symmetry_zero_diagonal (m : SpillMatrix) (cs : List String) :
    (∀ i j, buildSymmetricAdjacency m cs i j = buildSymmetricAdjacency m cs j i) ∧
      ∀ i, buildSymmetricAdjacency m cs i i = 0 :=
  foldl_outer_preserves m cs (List.range cs.length) (fun _ _ => 0)
    (fun _ _ => rfl) (fun _ => rfl)

theorem rawEdges_mem_prop (m : SpillMatrix) (cs : List String) (minW : ℚ) :
    ∀ r ∈ rawEdges m cs minW,
      r.ri < r.rj ∧ r.rj < cs.length ∧ minW ≤ r.rw ∧
        ∃ row, m (cs.getD r.ri "") = some row ∧ r.rw = symW m cs row r.ri r.rj := by
  intro r hr
  obtain ⟨i, hi, hmem⟩ := List.mem_flatMap.mp hr
  have hi' : i < cs.length := List.mem_range.mp hi
  cases hm : m (cs.getD i "") with
  | none => rw [hm] at hmem; cases hmem
  | some row =>
      rw [hm] at hmem
      obtain ⟨j, hj, heq⟩ := List.mem_filterMap.mp hmem
      have hj' := List.mem_range'_1.mp hj
      by_cases hw : minW ≤ symW m cs row i j
      · simp only [hw, if_pos] at heq
        obtain rfl := Option.some_injective _ heq
        exact ⟨show i < j by omega, show j < cs.length by omega, hw, row, hm, rfl⟩
      · simp only [hw, if_neg, if_false] at heq
        cases heq

theorem foldl_max_acc_le (l : List RawEdge) (acc : ℚ) :
    acc ≤ l.foldl (fun a x => max a x.rw) acc := by
  induction l generalizing acc with
  | nil => exact le_refl acc
  | cons x xs ih => exact le_trans (le_max_left acc x.rw) (ih _)

theorem foldl_max_rw_le (l : List RawEdge) (acc : ℚ) :
    ∀ r ∈ l, r.rw ≤ l.foldl (fun a x => max a x.rw) acc := by
  induction l generalizing acc with
  | nil => intro r hr; cases hr
  | cons x xs ih =>
      intro r hr
      rcases List.mem_cons.mp hr with rfl | hrs
      · exact le_trans (le_max_right acc r.rw) (foldl_max_acc_le xs _)
      · exact ih _ r hrs

/-- Claim C7 (amended): for every mapping, code list, and threshold
`minWeight > 0`, every returned edge has `source < target`, carries the
symmetric pair weight, satisfies `weight ≥ minWeight`, and has
`normalizedWeight = weight / maxWeight` where `maxWeight` bounds every
included weight, so the edge of maximum raw weight has
`normalizedWeight = 1`.  (For `minWeight ≤ 0` the final property can fail:
see the counterexample, which forced the `0 < minWeight` hypothesis.) -/
theorem c7_edge_list (m : SpillMatrix) (cs : List String) (minW : ℚ) (hmw : 0 < minW) :
    ∀ e ∈ buildEdgeList m cs minW,
      e.source < e.target ∧ minW ≤ e.weight ∧
        (∃ row, m (cs.getD e.source "") = some row ∧
          e.weight = symW m cs row e.source e.target) ∧
        e.weight ≤ maxRawWeight m cs minW ∧
        e.normalizedWeight = e.weight / maxRawWeight m cs minW ∧
        (e.weight = maxRawWeight m cs minW → e.normalizedWeight = 1) := by
  intro e he
  obtain ⟨r, hr, rfl⟩ := List.mem_map.mp he
  obtain ⟨hij, hjn, hwge, row, hrow, hwsym⟩ := rawEdges_mem_prop m cs minW r hr
  have hle : r.rw ≤ maxRawWeight m cs minW := foldl_max_rw_le _ 0 r hr
  have hpos : 0 < maxRawWeight m cs minW := lt_of_lt_of_le hmw (le_trans hwge hle)
  refine ⟨hij, hwge, ⟨row, hrow, hwsym⟩, hle, ?_, ?_⟩
  · simp only [if_pos hpos]
  · intro hmax
    have hmax' : r.rw = maxRawWeight m cs minW := hmax
    simp only [if_pos hpos]
    rw [hmax']
    exact div_self (ne_of_gt hpos)

/-- Counterexample for C7 as frozen: with `minWeight = 0` and the single
zero-weight entry `"A" → "B" = 0`, the pair is kept (`0 ≥ 0`), `maxWeight`
stays `0`, and the unique — hence maximum-raw-weight — edge is returned with
`normalizedWeight = 0`, not `1.0`. -/
theorem c7_counterexample :
    buildEdgeList mC7 ["A", "B"] 0 =
      [{ source := 0, target := 1, sourceCode := "A", targetCode := "B",
         weight := 0, normalizedWeight := 0 }] ∧
      ∃ e ∈ buildEdgeList mC7 ["A", "B"] 0,
        (∀ e' ∈ buildEdgeList mC7 ["A", "B"] 0, e'.weight ≤ e.weight) ∧
          e.normalizedWeight ≠ 1 := by
  refine ⟨by decide, ?_⟩
  refine ⟨{ source := 0, target := 1, sourceCode := "A", targetCode := "B",
            weight := 0, normalizedWeight := 0 }, by decide, by decide, by decide⟩

/-- Witness for C7's amended theorem: the mapping `"A" → "B" = 5` with
`minWeight = 1/200` returns the single edge `(0, 1)` with weight `5` and
normalized weight `1`, and the theorem's conclusions hold for it. -/
theorem c7_witness :
    (0 : ℚ) < 1 / 200 ∧
      ({ source := 0, target := 1, sourceCode := "A", targetCode := "B",
         weight := 5, normalizedWeight := 1 } : GraphEdge) ∈
          buildEdgeList mC7pos ["A", "B"] (1 / 200) ∧
      ({ source := 0, target := 1, sourceCode := "A", targetCode := "B",
         weight := 5, normalizedWeight := 1 } : GraphEdge).source <
        ({ source := 0, target := 1, sourceCode := "A", targetCode := "B",
           weight := 5, normalizedWeight := 1 } : GraphEdge).target :=
  have hmem :
      ({ source := 0, target := 1, sourceCode := "A", targetCode := "B",
         weight := 5, normalizedWeight := 1 } : GraphEdge) ∈
        buildEdgeList mC7pos ["A", "B"] (1 / 200) := by with_unfolding_all decide
  ⟨by norm_num, hmem,
    (c7_edge_list mC7pos ["A", "B"] (1 / 200) (by norm_num) _ hmem).1⟩

theorem louvainNodeStep_community_length (adj : ℕ → ℕ → ℚ) (n : ℕ) (m2 : ℚ)
    (degree : ℕ → ℚ) (st : LouvainState) (i : ℕ) :
    (louvainNodeStep adj n m2 degree st i).community.length = st.community.length := by
  simp [louvainNodeStep]

theorem foldl_nodeStep_community_length (adj : ℕ → ℕ → ℚ) (n : ℕ) (m2 : ℚ)
    (degree : ℕ → ℚ) (L : List ℕ) (st : LouvainState) :
    (L.foldl (louvainNodeStep adj n m2 degree) st).community.length =
      st.community.length := by
  induction L generalizing st with
  | nil => rfl
  | cons x xs ih =>
      simp only [List.foldl_cons]
      rw [ih]
      exact louvainNodeStep_community_length adj n m2 degree st x

theorem louvainPass_community_length (adj : ℕ → ℕ → ℚ) (n : ℕ) (m2 : ℚ)
    (degree : ℕ → ℚ) (st : LouvainState) :
    (louvainPass adj n m2 degree st).community.length = st.community.length := by
  unfold louvainPass
  rw [foldl_nodeStep_community_length]

theorem louvainLoop_community_length (adj : ℕ → ℕ → ℚ) (n : ℕ) (m2 : ℚ)
    (degree : ℕ → ℚ) (fuel : ℕ) (st : LouvainState) :
    (louvainLoop adj n m2 degree fuel st).community.length = st.community.length := by
  induction fuel generalizing st with
  | zero => rfl
  | succ t ih =>
      unfold louvainLoop
      by_cases h : (louvainPass adj n m2 degree st).moved
      · simp only [h, if_pos]
        rw [ih]
        exact louvainPass_community_length adj n m2 degree st
      · simp only [h, if_neg, if_false]
        exact louvainPass_community_length adj n m2 degree st

theorem louvainFinal_community_length (adj : ℕ → ℕ → ℚ) (n : ℕ) :
    (louvainFinal adj n).community.length = n := by
  unfold louvainFinal
  rw [louvainLoop_community_length]
  exact List.length_range n

theorem uniqFirst_aux_nodup (l acc : List ℕ) (h : acc.Nodup) :
    (l.foldl (fun acc c => if c ∈ acc then acc else acc ++ [c]) acc).Nodup := by
  induction l generalizing acc with
  | nil => exact h
  | cons x xs ih =>
      simp only [List.foldl_cons]
      by_cases hx : x ∈ acc
      · rw [if_pos hx]; exact ih _ h
      · rw [if_neg hx]
        exact ih _ (by simp [List.nodup_append, h, hx])

theorem uniqFirst_aux_mem (l acc : List ℕ) (c : ℕ) :
    c ∈ l.foldl (fun acc c => if c ∈ acc then acc else acc ++ [c]) acc ↔ c ∈ l ∨ c ∈ acc := by
  induction l generalizing acc with
  | nil => simp
  | cons x xs ih =>
      simp only [List.foldl_cons]
      by_cases hx : x ∈ acc
      · rw [if_pos hx, ih]
        constructor
        · rintro (h | h)
          · exact Or.inl (List.mem_cons_of_mem _ h)
          · exact Or.inr h
        · rintro (h | h)
          · rcases List.mem_cons.mp h with rfl | h'
            · exact Or.inr hx
            · exact Or.inl h'
          · exact Or.inr h
      · rw [if_neg hx, ih]
        constructor
        · rintro (h | h)
          · exact Or.inl (List.mem_cons_of_mem _ h)
          · rcases List.mem_append.mp h with h' | h'
            · exact Or.inr h'
            · rcases List.mem_singleton.mp h' with rfl
              exact Or.inl (List.mem_cons_self _ _)
        · rintro (h | h)
          · rcases List.mem_cons.mp h with rfl | h'
            · exact Or.inr (List.mem_append.mpr (Or.inr (List.mem_singleton.mpr rfl)))
            · exact Or.inl h'
          · exact Or.inr (List.mem_append.mpr (Or.inl h))

theorem uniqFirst_aux_length (l acc : List ℕ) :
    (l.foldl (fun acc c => if c ∈ acc then acc else acc ++ [c]) acc).length ≤
      acc.length + l.length := by
  induction l generalizing acc with
  | nil => simp
  | cons x xs ih =>
      simp only [List.foldl_cons, List.length_cons]
      by_cases hx : x ∈ acc
      · rw [if_pos hx]
        exact le_trans (ih acc) (by omega)
      · rw [if_neg hx]
        refine le_trans (ih _) ?_
        simp only [List.length_append, List.length_singleton]
        omega

theorem uniqFirst_nodup (l : List ℕ) : (uniqFirst l).Nodup :=
  uniqFirst_aux_nodup l [] List.nodup_nil

theorem uniqFirst_mem (l : List ℕ) (c : ℕ) : c ∈ uniqFirst l ↔ c ∈ l := by
  unfold uniqFirst
  rw [uniqFirst_aux_mem]
  simp

theorem uniqFirst_length_le (l : List ℕ) : (uniqFirst l).length ≤ l.length := by
  have := uniqFirst_aux_length l []
  simpa using this

theorem renumber_toFinset (l : List ℕ) :
    (l.map fun c => (uniqFirst l).indexOf c).toFinset = Finset.range (uniqFirst l).length := by
  ext x
  simp only [List.mem_toFinset, List.mem_map, Finset.mem_range]
  constructor
  · rintro ⟨c, hc, rfl⟩
    exact List.indexOf_lt_length.mpr ((uniqFirst_mem l c).mpr hc)
  · intro hx
    refine ⟨(uniqFirst l)[x], ?_, ?_⟩
    · exact (uniqFirst_mem l _).mp (List.getElem_mem _)
    · exact List.indexOf_getElem (uniqFirst_nodup l) x hx

theorem mod4_toFinset (n : ℕ) :
    ((List.range n).map fun i => i % 4).toFinset = Finset.range (min n 4) := by
  ext x
  simp only [List.mem_toFinset, List.mem_map, List.mem_range, Finset.mem_range]
  constructor
  · rintro ⟨i, hin, rfl⟩
    exact Nat.lt_min.mpr ⟨by omega, by omega⟩
  · intro hx
    rw [Nat.lt_min] at hx
    exact ⟨x, hx.1, by omega⟩

/-- Claim C5: for every non-negative symmetric adjacency matrix and node
count `n`, `louvainCommunities` returns an array of length `n` whose set of
distinct values is exactly `{0, …, k-1}` for some `k ≤ n`. -/
theorem c5_community_contiguity (adj : ℕ → ℕ → ℚ) (n : ℕ)
    (hnn : ∀ i j, 0 ≤ adj i j) (hsym : ∀ i j, adj i j = adj j i) :
    (louvainCommunities adj n).length = n ∧
      ∃ k ≤ n, (louvainCommunities adj n).toFinset = Finset.range k := by
  unfold louvainCommunities
  by_cases h : louvainTotalWeight adj n = 0
  · rw [if_pos h]
    exact ⟨by simp, min n 4, min_le_left n 4, mod4_toFinset n⟩
  · rw [if_neg h]
    refine ⟨by simp [louvainFinal_community_length], (uniqFirst (louvainFinal adj n).community).length, ?_, renumber_toFinset _⟩
    calc (uniqFirst (louvainFinal adj n).community).length
        ≤ (louvainFinal adj n).community.length := uniqFirst_length_le _
      _ = n := louvainFinal_community_length adj n

/-- Witness for C5: the all-zero symmetric matrix over three nodes yields a
length-3 assignment whose distinct values are a contiguous range. -/
theorem c5_witness :
    (louvainCommunities (fun _ _ => (0 : ℚ)) 3).length = 3 ∧
      ∃ k ≤ 3, (louvainCommunities (fun _ _ => (0 : ℚ)) 3).toFinset = Finset.range k :=
  c5_community_contiguity (fun _ _ => 0) 3 (fun _ _ => le_refl 0) (fun _ _ => rfl)

theorem update_nonneg {f : ℕ → ℚ} {w : ℕ} {val : ℚ} (hf : ∀ x, 0 ≤ f x) (hv : 0 ≤ val) :
    ∀ x, 0 ≤ Function.update f w val x := by
  intro x
  by_cases hx : x = w
  · subst hx
    rw [Function.update_same]
    exact hv
  · rw [Function.update_noteq hx]
    exact hf x

theorem bfsEnqueue_sigma (v w : ℕ) (st : BrandesState) :
    (bfsEnqueue v w st).sigma = st.sigma := by
  unfold bfsEnqueue
  split <;> rfl

theorem bfsRelax_sigma_nonneg (v w : ℕ) (st : BrandesState) (h : ∀ x, 0 ≤ st.sigma x) :
    ∀ x, 0 ≤ (bfsRelax v w st).sigma x := by
  unfold bfsRelax
  split
  · exact update_nonneg h (add_nonneg (h w) (h v))
  · exact h

theorem bfsInner_sigma_nonneg (p : ℕ → ℕ → Bool) (v : ℕ) (st : BrandesState) (w : ℕ)
    (h : ∀ x, 0 ≤ st.sigma x) : ∀ x, 0 ≤ (bfsInner p v st w).sigma x := by
  unfold bfsInner
  split
  · exact bfsRelax_sigma_nonneg v w _ (by rw [bfsEnqueue_sigma]; exact h)
  · exact h

theorem foldl_bfsInner_sigma_nonneg (p : ℕ → ℕ → Bool) (v : ℕ) (L : List ℕ)
    (st : BrandesState) (h : ∀ x, 0 ≤ st.sigma x) :
    ∀ x, 0 ≤ (L.foldl (bfsInner p v) st).sigma x := by
  induction L generalizing st with
  | nil => exact h
  | cons w ws ih =>
      simp only [List.foldl_cons]
      exact ih _ (bfsInner_sigma_nonneg p v st w h)

theorem bfsLoop_sigma_nonneg (p : ℕ → ℕ → Bool) (n fuel : ℕ) (st : BrandesState)
    (h : ∀ x, 0 ≤ st.sigma x) : ∀ x, 0 ≤ (bfsLoop p n fuel st).sigma x := by
  induction fuel generalizing st with
  | zero => exact h
  | succ t ih =>
      unfold bfsLoop
      cases st.queue with
      | nil => exact h
      | cons v rest => exact ih _ (foldl_bfsInner_sigma_nonneg p v _ _ h)

theorem foldl_delta_nonneg (sigma : ℕ → ℚ) (w : ℕ) (P : List ℕ) (delta : ℕ → ℚ)
    (hsig : ∀ x, 0 ≤ sigma x) (hd : ∀ x, 0 ≤ delta x) :
    ∀ x, 0 ≤ (P.foldl
      (fun d v => Function.update d v (d v + sigma v / sigma w * (1 + d w))) delta) x := by
  induction P generalizing delta with
  | nil => exact hd
  | cons v vs ih =>
      simp only [List.foldl_cons]
      refine ih _ (update_nonneg hd ?_)
      have h1 : 0 ≤ sigma v / sigma w := div_nonneg (hsig v) (hsig w)
      have h2 : (0 : ℚ) ≤ 1 + delta w := by linarith [hd w]
      have := mul_nonneg h1 h2
      linarith [hd v]

theorem backProp_nonneg (s : ℕ) (pred : ℕ → List ℕ) (sigma : ℕ → ℚ) (popOrder : List ℕ)
    (delta bc : ℕ → ℚ) (hsig : ∀ x, 0 ≤ sigma x) (hd : ∀ x, 0 ≤ delta x)
    (hb : ∀ x, 0 ≤ bc x) :
    ∀ x, 0 ≤ (backProp s pred sigma popOrder delta bc).2 x := by
  induction popOrder generalizing delta bc with
  | nil => exact hb
  | cons w rest ih =>
      simp only [backProp]
      have hd' := foldl_delta_nonneg sigma w (pred w) delta hsig hd
      refine ih _ _ hd' ?_
      by_cases hw : w ≠ s
      · rw [if_pos hw]
        exact update_nonneg hb (add_nonneg (hb w) (hd' w))
      · rw [if_neg hw]
        exact hb

theorem brandesSource_nonneg (p : ℕ → ℕ → Bool) (n : ℕ) (bc : ℕ → ℚ) (s : ℕ)
    (hb : ∀ x, 0 ≤ bc x) : ∀ x, 0 ≤ brandesSource p n bc s x := by
  unfold brandesSource
  refine backProp_nonneg s _ _ _ _ bc ?_ (fun x => le_refl 0) hb
  refine bfsLoop_sigma_nonneg p n n _ ?_
  exact update_nonneg (fun x => le_refl 0) (by norm_num)

theorem foldl_brandesSource_nonneg (p : ℕ → ℕ → Bool) (n : ℕ) (L : List ℕ)
    (bc : ℕ → ℚ) (hb : ∀ x, 0 ≤ bc x) : ∀ x, 0 ≤ (L.foldl (brandesSource p n) bc) x := by
  induction L generalizing bc with
  | nil => exact hb
  | cons s ss ih => exact ih _ (brandesSource_nonneg p n bc s hb)

theorem bcRaw_nonneg (p : ℕ → ℕ → Bool) (n : ℕ) : ∀ q ∈ bcRaw p n, 0 ≤ q := by
  intro q hq
  obtain ⟨i, hi, rfl⟩ := List.mem_map.mp hq
  exact foldl_brandesSource_nonneg p n (List.range n) _ (fun x => le_refl 0) i

theorem foldlq_max_acc_le (l : List ℚ) (acc : ℚ) : acc ≤ l.foldl max acc := by
  induction l generalizing acc with
  | nil => exact le_refl acc
  | cons x xs ih => exact le_trans (le_max_left acc x) (ih _)

theorem foldlq_max_mem_le (l : List ℚ) (acc : ℚ) : ∀ q ∈ l, q ≤ l.foldl max acc := by
  induction l generalizing acc with
  | nil => intro q hq; cases hq
  | cons x xs ih =>
      intro q hq
      rcases List.mem_cons.mp hq with rfl | hqs
      · exact le_trans (le_max_right acc q) (foldlq_max_acc_le xs _)
      · exact ih _ q hqs

theorem foldlq_max_out (l : List ℚ) (a b : ℚ) :
    max (l.foldl max a) b = l.foldl max (max a b) := by
  induction l generalizing a with
  | nil => rfl
  | cons x xs ih =>
      simp only [List.foldl_cons]
      rw [ih]
      congr 1
      rw [max_assoc, max_comm x b, ← max_assoc]

theorem bcRaw_length (p : ℕ → ℕ → Bool) (n : ℕ) : (bcRaw p n).length = n := by
  simp [bcRaw]

/-- Claim C6: every value returned by `betweennessCentrality` on a
non-negative symmetric adjacency matrix lies in `[0, 1]` and equals the
node's raw accumulated Brandes score divided by `max(maxRawScore, 1e-10)`;
and for two nodes with no path between them and no third node, both returned
values are `0`. -/
theorem c6_centrality_bounds :
    (∀ (adj : ℕ → ℕ → ℚ) (n : ℕ) (thr : ℚ),
      (∀ i j, 0 ≤ adj i j) → (∀ i j, adj i j = adj j i) →
      ∀ i, i < n →
        0 ≤ (betweennessCentrality adj n thr).getD i 0 ∧
          (betweennessCentrality adj n thr).getD i 0 ≤ 1 ∧
          (betweennessCentrality adj n thr).getD i 0 =
            (bcRaw (edgeOk adj thr) n).getD i 0 /
              max ((bcRaw (edgeOk adj thr) n).foldl max 0) (1 / 10000000000)) ∧
      betweennessCentrality (fun _ _ => 0) 2 (1 / 200) = [0, 0] := by
  constructor
  · intro adj n thr hnn hsym i hi
    have hlen : (bcRaw (edgeOk adj thr) n).length = n := bcRaw_length _ n
    have hi' : i < (bcRaw (edgeOk adj thr) n).length := by rw [hlen]; exact hi
    have hraw : ∀ q ∈ bcRaw (edgeOk adj thr) n, 0 ≤ q := bcRaw_nonneg _ n
    have hel : 0 ≤ (bcRaw (edgeOk adj thr) n)[i] := hraw _ (List.getElem_mem hi')
    have hmax10 : (1 / 10000000000 : ℚ) ≤
        (bcRaw (edgeOk adj thr) n).foldl max (1 / 10000000000) :=
      foldlq_max_acc_le _ _
    have hmaxpos : (0 : ℚ) < (bcRaw (edgeOk adj thr) n).foldl max (1 / 10000000000) :=
      lt_of_lt_of_le (by norm_num) hmax10
    have hle : (bcRaw (edgeOk adj thr) n)[i] ≤
        (bcRaw (edgeOk adj thr) n).foldl max (1 / 10000000000) :=
      foldlq_max_mem_le _ _ _ (List.getElem_mem hi')
    have hres : (betweennessCentrality adj n thr).getD i 0 =
        (bcRaw (edgeOk adj thr) n)[i] /
          (bcRaw (edgeOk adj thr) n).foldl max (1 / 10000000000) := by
      unfold betweennessCentrality
      rw [List.getD_eq_getElem _ _ (by simpa using hi'), List.getElem_map]
    refine ⟨?_, ?_, ?_⟩
    · rw [hres]
      exact div_nonneg hel (le_of_lt hmaxpos)
    · rw [hres]
      exact (div_le_one hmaxpos).mpr hle
    · rw [hres, List.getD_eq_getElem _ _ hi']
      congr 1
      rw [foldlq_max_out]
      congr 1
      norm_num
  · with_unfolding_all decide

/-- Witness for C6: applying the bounds to the all-zero symmetric `3 × 3`
matrix at index `0`. -/
theorem c6_witness :
    0 ≤ (betweennessCentrality (fun _ _ => 0) 3 (1 / 200)).getD 0 0 ∧
      (betweennessCentrality (fun _ _ => 0) 3 (1 / 200)).getD 0 0 ≤ 1 ∧
      (betweennessCentrality (fun _ _ => 0) 3 (1 / 200)).getD 0 0 =
        (bcRaw (edgeOk (fun _ _ => 0) (1 / 200)) 3).getD 0 0 /
          max ((bcRaw (edgeOk (fun _ _ => 0) (1 / 200)) 3).foldl max 0) (1 / 10000000000) :=
  c6_centrality_bounds.1 (fun _ _ => 0) 3 (1 / 200) (fun _ _ => le_refl 0) (fun _ _ => rfl)
    0 (by norm_num)

theorem edgeOk_congr_offdiag (adj1 adj2 : ℕ → ℕ → ℚ) (thr : ℚ)
    (hoff : ∀ i j, i ≠ j → adj1 i j = adj2 i j) : edgeOk adj1 thr = edgeOk adj2 thr := by
  funext v w
  unfold edgeOk
  by_cases hvw : v = w
  · subst hvw
    simp
  · rw [hoff v w hvw]

/-- Claim C10: `betweennessCentrality` never reads the diagonal of the
adjacency matrix: two symmetric matrices agreeing off the diagonal produce
identical centrality arrays, because the matrix is only consulted through the
edge-inclusion predicate, which always skips `v === w`. -/
theorem c10_diagonal_independence (adj1 adj2 : ℕ → ℕ → ℚ) (n : ℕ) (thr : ℚ)
    (hs1 : ∀ i j, adj1 i j = adj1 j i) (hs2 : ∀ i j, adj2 i j = adj2 j i)
    (hoff : ∀ i j, i ≠ j → adj1 i j = adj2 i j) :
    betweennessCentrality adj1 n thr = betweennessCentrality adj2 n thr := by
  unfold betweennessCentrality
  rw [edgeOk_congr_offdiag adj1 adj2 thr hoff]

/-- Witness for C10: a matrix with self-loop weights `5` on the diagonal and
the all-zero matrix agree off the diagonal, are both symmetric, and get the
same centrality array over two nodes. -/
theorem c10_witness :
    (∀ i j : ℕ, i ≠ j →
      (fun a b => if a = b then (5 : ℚ) else 0) i j = (fun _ _ => (0 : ℚ)) i j) ∧
      betweennessCentrality (fun a b => if a = b then (5 : ℚ) else 0) 2 (1 / 200) =
        betweennessCentrality (fun _ _ => (0 : ℚ)) 2 (1 / 200) :=
  have hoff : ∀ i j : ℕ, i ≠ j →
      (fun a b => if a = b then (5 : ℚ) else 0) i j = (fun _ _ => (0 : ℚ)) i j := by
    intro i j h
    simp only [if_neg h]
  ⟨hoff,
    c10_diagonal_independence (fun a b => if a = b then (5 : ℚ) else 0) (fun _ _ => 0) 2
      (1 / 200)
      (by
        intro i j
        by_cases h : i = j
        · subst h; rfl
        · show (if i = j then (5 : ℚ) else 0) = if j = i then (5 : ℚ) else 0
          rw [if_neg h, if_neg fun hc : j = i => h hc.symm])
      (fun _ _ => rfl) hoff⟩



theorem accOf_setPos (nd : FA2Node) (px py : ℝ) : accOf (setPos nd px py) = accOf nd := rfl

theorem mem_of_getElem_opt {α : Type} {l : List α} {i : ℕ} {a : α} (h : l[i]? = some a) :
    a ∈ l := by
  have h2 : i < l.length := by
    by_contra hc
    rw [List.getElem?_eq_none (by omega)] at h
    cases h
  rw [List.getElem?_eq_getElem h2] at h
  obtain rfl := (Option.some_injective _ h).symm
  exact List.getElem_mem h2

theorem foldl_length_preserved {α : Type} (f : List FA2Node → α → List FA2Node)
    (hf : ∀ s a, (f s a).length = s.length) (L : List α) (ns : List FA2Node) :
    (L.foldl f ns).length = ns.length := by
  induction L generalizing ns with
  | nil => rfl
  | cons x xs ih => rw [List.foldl_cons, ih, hf]

theorem addForce_length (ns : List FA2Node) (i : ℕ) (fx fy : ℝ) :
    (addForce ns i fx fy).length = ns.length := by
  unfold addForce
  split <;> simp [List.length_set]

theorem repulsionStep_length (scaled : ℝ) (ns : List FA2Node) (pr : ℕ × ℕ) :
    (repulsionStep scaled ns pr).length = ns.length := by
  unfold repulsionStep
  rw [addForce_length, addForce_length]

theorem repulsionPhase_length (ns : List FA2Node) (scaled : ℝ) :
    (repulsionPhase ns scaled).length = ns.length :=
  foldl_length_preserved _ (repulsionStep_length scaled) _ ns

theorem attractionStep_length (cfg : FA2Config) (ns : List FA2Node) (e : FA2Edge) :
    (attractionStep cfg ns e).length = ns.length := by
  unfold attractionStep
  rw [addForce_length, addForce_length]

theorem attractionPhase_length (ns : List FA2Node) (es : List FA2Edge) (cfg : FA2Config) :
    (attractionPhase ns es cfg).length = ns.length :=
  foldl_length_preserved _ (attractionStep_length cfg) es ns

theorem overlapStep_length (ns : List FA2Node) (pr : ℕ × ℕ) :
    (overlapStep ns pr).length = ns.length := by
  unfold overlapStep
  dsimp only
  split
  · simp [List.length_set]
  · rfl

theorem overlapPhase_length (ns : List FA2Node) : (overlapPhase ns).length = ns.length :=
  foldl_length_preserved _ overlapStep_length _ ns

theorem fa2AfterForces_length (ns : List FA2Node) (es : List FA2Edge) (cfg : FA2Config)
    (frame totalFrames : ℕ) :
    (fa2AfterForces ns es cfg frame totalFrames).length = ns.length := by
  unfold fa2AfterForces gravityPhase
  rw [List.length_map, attractionPhase_length, repulsionPhase_length]
  unfold resetPhase
  rw [List.length_map]

theorem fa2AfterDisplacement_length (ns : List FA2Node) (es : List FA2Edge) (cfg : FA2Config)
    (frame totalFrames : ℕ) :
    (fa2AfterDisplacement ns es cfg frame totalFrames).length = ns.length := by
  unfold fa2AfterDisplacement displacePhase adaptivePhase
  rw [List.length_map, List.length_map, fa2AfterForces_length]

theorem fa2Iterate_length (ns : List FA2Node) (es : List FA2Edge) (cfg : FA2Config)
    (frame totalFrames : ℕ) : (fa2Iterate ns es cfg frame totalFrames).length = ns.length := by
  unfold fa2Iterate boundsPhase
  rw [List.length_map, overlapPhase_length, fa2AfterDisplacement_length]

theorem accsEq_refl (ns : List FA2Node) : accsEq ns ns := ⟨rfl, fun _ => rfl⟩

theorem accsEq_trans {ns1 ns2 ns3 : List FA2Node} (h1 : accsEq ns1 ns2)
    (h2 : accsEq ns2 ns3) : accsEq ns1 ns3 :=
  ⟨h1.1.trans h2.1, fun i => (h1.2 i).trans (h2.2 i)⟩

theorem accsEq_map {f : FA2Node → FA2Node} (hf : ∀ nd, accOf (f nd) = accOf nd)
    (ns : List FA2Node) : accsEq (ns.map f) ns := by
  refine ⟨List.length_map ns f, fun i => ?_⟩
  rw [List.getElem?_map]
  cases ns[i]? with
  | none => rfl
  | some nd => simp [hf nd]

theorem accsEq_set (ns : List FA2Node) (j : ℕ) (nd' : FA2Node)
    (h : ∀ nd, ns[j]? = some nd → accOf nd' = accOf nd) : accsEq (ns.set j nd') ns := by
  by_cases hj : j < ns.length
  · refine ⟨List.length_set ns j nd', fun i => ?_⟩
    rw [List.getElem?_set]
    by_cases hij : j = i
    · subst hij
      rw [if_pos rfl, if_pos hj, List.getElem?_eq_getElem hj]
      have := h ns[j] (List.getElem?_eq_getElem hj)
      simp [this]
    · rw [if_neg hij]
  · rw [List.set_eq_of_length_le (by omega)]
    exact accsEq_refl ns

theorem displacePhase_accsEq (ns : List FA2Node) (cfg : FA2Config) :
    accsEq (displacePhase ns cfg) ns := by
  unfold displacePhase
  refine accsEq_map (fun nd => ?_) ns
  dsimp only
  split <;> rfl

theorem boundsPhase_accsEq (ns : List FA2Node) : accsEq (boundsPhase ns) ns := by
  unfold boundsPhase
  refine accsEq_map (fun nd => ?_) ns
  rfl

theorem overlapStep_accsEq (ns : List FA2Node) (pr : ℕ × ℕ) :
    accsEq (overlapStep ns pr) ns := by
  unfold overlapStep
  dsimp only
  split
  · refine accsEq_trans (accsEq_set _ pr.2 _ ?_) (accsEq_set _ pr.1 _ ?_)
    · intro nd hnd
      rw [accOf_setPos]
      rw [List.getElem?_set] at hnd
      by_cases hpp : pr.1 = pr.2
      · rw [if_pos hpp] at hnd
        by_cases hb : pr.1 < ns.length
        · rw [if_pos hb] at hnd
          obtain rfl := Option.some_injective _ hnd
          rw [accOf_setPos, ← hpp]
        · rw [if_neg hb] at hnd
          cases hnd
      · rw [if_neg hpp] at hnd
        have hlt : pr.2 < ns.length := by
          by_contra hc
          rw [List.getElem?_eq_none (by omega)] at hnd
          cases hnd
        rw [List.getElem?_eq_getElem hlt] at hnd
        obtain rfl := Option.some_injective _ hnd
        rw [List.getD_eq_getElem ns default hlt]
    · intro nd hnd
      rw [accOf_setPos]
      have hlt : pr.1 < ns.length := by
        by_contra hc
        rw [List.getElem?_eq_none (by omega)] at hnd
        cases hnd
      rw [List.getElem?_eq_getElem hlt] at hnd
      obtain rfl := Option.some_injective _ hnd
      rw [List.getD_eq_getElem ns default hlt]
  · exact accsEq_refl ns

theorem overlapPhase_accsEq (ns : List FA2Node) : accsEq (overlapPhase ns) ns := by
  unfold overlapPhase
  generalize pairsUpTo ns.length = L
  suffices h : ∀ (P : List (ℕ × ℕ)) (s : List FA2Node), accsEq (P.foldl overlapStep s) s from
    h L ns
  intro P
  induction P with
  | nil => exact fun s => accsEq_refl s
  | cons p ps ih =>
      intro s
      rw [List.foldl_cons]
      exact accsEq_trans (ih (overlapStep s p)) (overlapStep_accsEq s p)

theorem accOf_fields {n1 n2 : FA2Node} (h : accOf n1 = accOf n2) :
    n1.dx = n2.dx ∧ n1.dy = n2.dy ∧ n1.oldDx = n2.oldDx ∧ n1.oldDy = n2.oldDy ∧
      n1.convergence = n2.convergence := by
  simp only [accOf, Prod.mk.injEq] at h
  exact h

theorem swingingOf_congr {n1 n2 : FA2Node} (h : accOf n1 = accOf n2) :
    swingingOf n1 = swingingOf n2 := by
  obtain ⟨h1, h2, h3, h4, -⟩ := accOf_fields h
  unfold swingingOf
  rw [h1, h2, h3, h4]

theorem tractionOf_congr {n1 n2 : FA2Node} (h : accOf n1 = accOf n2) :
    tractionOf n1 = tractionOf n2 := by
  obtain ⟨h1, h2, h3, h4, -⟩ := accOf_fields h
  unfold tractionOf
  rw [h1, h2, h3, h4]

theorem swingingOf_nonneg (nd : FA2Node) : 0 ≤ swingingOf nd := Real.sqrt_nonneg _

theorem tractionOf_nonneg (nd : FA2Node) : 0 ≤ tractionOf nd :=
  div_nonneg (Real.sqrt_nonneg _) (by norm_num)

theorem adaptivePhase_formula (ns : List FA2Node) (cfg : FA2Config) :
    ∀ nd ∈ adaptivePhase ns cfg,
      nd.convergence = min 1 (cfg.jitterTolerance * cfg.jitterTolerance * tractionOf nd /
        (swingingOf nd + 0.01)) := by
  intro nd h
  obtain ⟨nd0, -, rfl⟩ := List.mem_map.mp h
  rfl

theorem conv_transport {ns' ns : List FA2Node} (cfg : FA2Config) (hacc : accsEq ns' ns)
    (h : ∀ nd ∈ ns, nd.convergence = min 1 (cfg.jitterTolerance * cfg.jitterTolerance *
      tractionOf nd / (swingingOf nd + 0.01))) :
    ∀ nd' ∈ ns', nd'.convergence = min 1 (cfg.jitterTolerance * cfg.jitterTolerance *
      tractionOf nd' / (swingingOf nd' + 0.01)) := by
  intro nd' hmem
  obtain ⟨i, hi⟩ := List.mem_iff_getElem?.mp hmem
  have hmaps := hacc.2 i
  rw [hi] at hmaps
  cases hns : ns[i]? with
  | none => rw [hns] at hmaps; cases hmaps
  | some nd =>
      rw [hns] at hmaps
      simp only [Option.map_some'] at hmaps
      have heq : accOf nd' = accOf nd := Option.some_injective _ hmaps
      obtain ⟨-, -, -, -, h5⟩ := accOf_fields heq
      rw [h5, swingingOf_congr heq, tractionOf_congr heq]
      exact h nd (mem_of_getElem_opt hns)

/-- Claim C2 (amended): after any single call to `fa2Iterate`, every node's
`convergence` equals `min(1, jitterTolerance² * effectiveTraction /
(swinging + 0.01))` computed from that node's current and previous force
accumulators, and lies in the closed interval `[0, 1]` — not the half-open
`(0, 1]` of the original claim, since it is exactly `0` whenever the
effective traction vanishes (see the counterexample). -/
theorem c2_convergence_formula (ns : List FA2Node) (es : List FA2Edge) (cfg : FA2Config)
    (frame totalFrames : ℕ) (i : ℕ)
    (hi : i < (fa2Iterate ns es cfg frame totalFrames).length) :
    ((fa2Iterate ns es cfg frame totalFrames).getD i default).convergence =
        min 1 (cfg.jitterTolerance * cfg.jitterTolerance *
          tractionOf ((fa2Iterate ns es cfg frame totalFrames).getD i default) /
          (swingingOf ((fa2Iterate ns es cfg frame totalFrames).getD i default) + 0.01)) ∧
      0 ≤ ((fa2Iterate ns es cfg frame totalFrames).getD i default).convergence ∧
      ((fa2Iterate ns es cfg frame totalFrames).getD i default).convergence ≤ 1 := by
  have hmem : (fa2Iterate ns es cfg frame totalFrames).getD i default ∈
      fa2Iterate ns es cfg frame totalFrames := by
    rw [List.getD_eq_getElem _ _ hi]
    exact List.getElem_mem hi
  have hacc : accsEq (fa2Iterate ns es cfg frame totalFrames)
      (adaptivePhase (fa2AfterForces ns es cfg frame totalFrames) cfg) := by
    unfold fa2Iterate fa2AfterDisplacement
    exact accsEq_trans (accsEq_trans (boundsPhase_accsEq _) (overlapPhase_accsEq _))
      (displacePhase_accsEq _ cfg)
  have hform := conv_transport cfg hacc (adaptivePhase_formula _ cfg) _ hmem
  refine ⟨hform, ?_, ?_⟩
  · rw [hform]
    refine le_min (by norm_num) (div_nonneg ?_ ?_)
    · exact mul_nonneg (mul_self_nonneg _) (tractionOf_nonneg _)
    · have := swingingOf_nonneg ((fa2Iterate ns es cfg frame totalFrames).getD i default)
      linarith
  · rw [hform]
    exact min_le_left _ _

/-- Witness for C2's amended theorem: a single node resting at the gravity
center, default config, frame 0 of 300. -/
theorem c2_witness :
    0 < (fa2Iterate [centerNode] [] defaultConfig 0 300).length ∧
      (((fa2Iterate [centerNode] [] defaultConfig 0 300).getD 0 default).convergence =
          min 1 (defaultConfig.jitterTolerance * defaultConfig.jitterTolerance *
            tractionOf ((fa2Iterate [centerNode] [] defaultConfig 0 300).getD 0 default) /
            (swingingOf ((fa2Iterate [centerNode] [] defaultConfig 0 300).getD 0 default) +
              0.01)) ∧
        0 ≤ ((fa2Iterate [centerNode] [] defaultConfig 0 300).getD 0 default).convergence ∧
        ((fa2Iterate [centerNode] [] defaultConfig 0 300).getD 0 default).convergence ≤ 1) :=
  have hlen : 0 < (fa2Iterate [centerNode] [] defaultConfig 0 300).length := by
    rw [fa2Iterate_length]
    norm_num
  ⟨hlen, c2_convergence_formula [centerNode] [] defaultConfig 0 300 0 hlen⟩

/-- Counterexample for C2 as frozen: for a single node resting at the gravity
center with zero accumulators, all forces vanish, swinging and effective
traction are both `0`, and the node leaves `fa2Iterate` with
`convergence = min(1, 0 / 0.01) = 0`, which is not in the half-open interval
`(0, 1]`. -/
theorem c2_counterexample :
    ((fa2Iterate [centerNode] [] defaultConfig 0 300).getD 0 default).convergence = 0 ∧
      ¬(0 < ((fa2Iterate [centerNode] [] defaultConfig 0 300).getD 0 default).convergence) := by
  have h1 : resetPhase [centerNode] = [centerNode] := rfl
  have h2 : ∀ s : ℝ, repulsionPhase [centerNode] s = [centerNode] := fun s => rfl
  have h3 : ∀ cfg : FA2Config, attractionPhase [centerNode] [] cfg = [centerNode] :=
    fun cfg => rfl
  have h4 : ∀ pm : ℝ, gravityPhase [centerNode] defaultConfig pm = [centerNode] := by
    intro pm
    norm_num [gravityPhase, centerNode, defaultConfig]
  have h5 : adaptivePhase [centerNode] defaultConfig = [⟨500, 300, 0, 0, 0, 0, 1, 0⟩] := by
    norm_num [adaptivePhase, centerNode, defaultConfig, swingingOf, tractionOf,
      Real.sqrt_zero, min_def]
  have h6 : displacePhase [(⟨500, 300, 0, 0, 0, 0, 1, 0⟩ : FA2Node)] defaultConfig =
      [⟨500, 300, 0, 0, 0, 0, 1, 0⟩] := by
    norm_num [displacePhase, Real.sqrt_zero]
  have h7 : overlapPhase [(⟨500, 300, 0, 0, 0, 0, 1, 0⟩ : FA2Node)] =
      [⟨500, 300, 0, 0, 0, 0, 1, 0⟩] := rfl
  have h8 : boundsPhase [(⟨500, 300, 0, 0, 0, 0, 1, 0⟩ : FA2Node)] =
      [⟨500, 300, 0, 0, 0, 0, 1, 0⟩] := by
    norm_num [boundsPhase]
  have hres : fa2Iterate [centerNode] [] defaultConfig 0 300 =
      [⟨500, 300, 0, 0, 0, 0, 1, 0⟩] := by
    unfold fa2Iterate fa2AfterDisplacement fa2AfterForces
    dsimp only
    rw [h1, h2, h3, h4, h5, h6, h7, h8]
  rw [hres]
  norm_num

theorem overlapPhase_two (a b : FA2Node) :
    ((0.01 < nodeDist a b ∧ nodeDist a b < 65) →
      nodeDist ((overlapPhase [a, b]).getD 0 default)
        ((overlapPhase [a, b]).getD 1 default) = 65) ∧
      (nodeDist a b ≤ 0.01 → overlapPhase [a, b] = [a, b]) := by
  have hstep : overlapPhase [a, b] = overlapStep [a, b] (0, 1) := rfl
  have hga : ([a, b] : List FA2Node).getD 0 default = a := rfl
  have hgb : ([a, b] : List FA2Node).getD 1 default = b := rfl
  constructor
  · rintro ⟨hgt, hlt⟩
    have hd : nodeDist a b =
        Real.sqrt ((b.x - a.x) * (b.x - a.x) + (b.y - a.y) * (b.y - a.y)) := rfl
    have hdpos : 0 < nodeDist a b := lt_trans (by norm_num) hgt
    have hdne : nodeDist a b ≠ 0 := ne_of_gt hdpos
    have hsq : nodeDist a b ^ 2 = (b.x - a.x) * (b.x - a.x) + (b.y - a.y) * (b.y - a.y) := by
      rw [hd]
      exact Real.sq_sqrt (add_nonneg (mul_self_nonneg _) (mul_self_nonneg _))
    rw [hstep]
    unfold overlapStep
    dsimp only
    rw [hga, hgb, ← hd, if_pos ⟨hlt, hgt⟩]
    have hset : (([a, b].set 0
          (setPos a (a.x - (b.x - a.x) / nodeDist a b * ((65 - nodeDist a b) * 0.5))
            (a.y - (b.y - a.y) / nodeDist a b * ((65 - nodeDist a b) * 0.5)))).set 1
          (setPos b (b.x + (b.x - a.x) / nodeDist a b * ((65 - nodeDist a b) * 0.5))
            (b.y + (b.y - a.y) / nodeDist a b * ((65 - nodeDist a b) * 0.5)))) =
        [setPos a (a.x - (b.x - a.x) / nodeDist a b * ((65 - nodeDist a b) * 0.5))
            (a.y - (b.y - a.y) / nodeDist a b * ((65 - nodeDist a b) * 0.5)),
          setPos b (b.x + (b.x - a.x) / nodeDist a b * ((65 - nodeDist a b) * 0.5))
            (b.y + (b.y - a.y) / nodeDist a b * ((65 - nodeDist a b) * 0.5))] := rfl
    rw [hset]
    have hnds : ∀ (x1 y1 x2 y2 : ℝ),
        nodeDist ([setPos a x1 y1, setPos b x2 y2].getD 0 default)
          ([setPos a x1 y1, setPos b x2 y2].getD 1 default) =
          Real.sqrt ((x2 - x1) * (x2 - x1) + (y2 - y1) * (y2 - y1)) := fun _ _ _ _ => rfl
    rw [hnds]
    have hx : b.x + (b.x - a.x) / nodeDist a b * ((65 - nodeDist a b) * 0.5) -
        (a.x - (b.x - a.x) / nodeDist a b * ((65 - nodeDist a b) * 0.5)) =
        (b.x - a.x) * 65 / nodeDist a b := by
      field_simp
      ring
    have hy : b.y + (b.y - a.y) / nodeDist a b * ((65 - nodeDist a b) * 0.5) -
        (a.y - (b.y - a.y) / nodeDist a b * ((65 - nodeDist a b) * 0.5)) =
        (b.y - a.y) * 65 / nodeDist a b := by
      field_simp
      ring
    rw [hx, hy]
    rw [show (b.x - a.x) * 65 / nodeDist a b * ((b.x - a.x) * 65 / nodeDist a b) +
        (b.y - a.y) * 65 / nodeDist a b * ((b.y - a.y) * 65 / nodeDist a b) =
        ((b.x - a.x) * (b.x - a.x) + (b.y - a.y) * (b.y - a.y)) *
          (65 / nodeDist a b) ^ 2 from by ring]
    rw [← hsq]
    rw [show nodeDist a b ^ 2 * (65 / nodeDist a b) ^ 2 = 65 ^ 2 from by
      field_simp]
    exact Real.sqrt_sq (by norm_num)
  · intro hle
    rw [hstep]
    unfold overlapStep
    dsimp only
    rw [hga, hgb]
    rw [if_neg]
    rintro ⟨-, hgt⟩
    have hd : nodeDist a b =
        Real.sqrt ((b.x - a.x) * (b.x - a.x) + (b.y - a.y) * (b.y - a.y)) := rfl
    rw [← hd] at hgt
    linarith

/-- Claim C3 (amended): within one `fa2Iterate` call on a two-node layout,
if the pair is closer than 65 units after the displacement-application phase
and its distance exceeds `0.01`, the overlap-correction phase pushes both
nodes apart symmetrically by half the deficit and leaves them at separation
exactly 65; but a pair at distance ≤ `0.01` — in particular coincident
nodes — is excluded by the `dist > 0.01` guard and left unchanged, contrary
to the original claim's "no exception for nearly coincident nodes". -/
theorem c3_overlap_separation (ns : List FA2Node) (es : List FA2Edge) (cfg : FA2Config)
    (frame totalFrames : ℕ)
    (hlen : (fa2AfterDisplacement ns es cfg frame totalFrames).length = 2) :
    ((0.01 <
        nodeDist ((fa2AfterDisplacement ns es cfg frame totalFrames).getD 0 default)
          ((fa2AfterDisplacement ns es cfg frame totalFrames).getD 1 default) ∧
        nodeDist ((fa2AfterDisplacement ns es cfg frame totalFrames).getD 0 default)
          ((fa2AfterDisplacement ns es cfg frame totalFrames).getD 1 default) < 65) →
      nodeDist ((overlapPhase (fa2AfterDisplacement ns es cfg frame totalFrames)).getD 0 default)
        ((overlapPhase (fa2AfterDisplacement ns es cfg frame totalFrames)).getD 1 default) =
        65) ∧
      (nodeDist ((fa2AfterDisplacement ns es cfg frame totalFrames).getD 0 default)
          ((fa2AfterDisplacement ns es cfg frame totalFrames).getD 1 default) ≤ 0.01 →
        overlapPhase (fa2AfterDisplacement ns es cfg frame totalFrames) =
          fa2AfterDisplacement ns es cfg frame totalFrames) := by
  obtain ⟨a, b, hab⟩ := List.length_eq_two.mp hlen
  rw [hab]
  have hga : ([a, b] : List FA2Node).getD 0 default = a := rfl
  have hgb : ([a, b] : List FA2Node).getD 1 default = b := rfl
  rw [hga, hgb]
  exact overlapPhase_two a b

/-- Witness for C3's amended theorem: two nodes resting at the center give a
length-2 post-displacement state, for which both implications hold. -/
theorem c3_witness :
    (fa2AfterDisplacement [centerNode, centerNode] [] defaultConfig 0 300).length = 2 ∧
      (((0.01 <
          nodeDist
            ((fa2AfterDisplacement [centerNode, centerNode] [] defaultConfig 0 300).getD 0
              default)
            ((fa2AfterDisplacement [centerNode, centerNode] [] defaultConfig 0 300).getD 1
              default) ∧
          nodeDist
            ((fa2AfterDisplacement [centerNode, centerNode] [] defaultConfig 0 300).getD 0
              default)
            ((fa2AfterDisplacement [centerNode, centerNode] [] defaultConfig 0 300).getD 1
              default) < 65) →
        nodeDist
          ((overlapPhase
            (fa2AfterDisplacement [centerNode, centerNode] [] defaultConfig 0 300)).getD 0
            default)
          ((overlapPhase
            (fa2AfterDisplacement [centerNode, centerNode] [] defaultConfig 0 300)).getD 1
            default) = 65) ∧
        (nodeDist
            ((fa2AfterDisplacement [centerNode, centerNode] [] defaultConfig 0 300).getD 0
              default)
            ((fa2AfterDisplacement [centerNode, centerNode] [] defaultConfig 0 300).getD 1
              default) ≤ 0.01 →
          overlapPhase (fa2AfterDisplacement [centerNode, centerNode] [] defaultConfig 0 300) =
            fa2AfterDisplacement [centerNode, centerNode] [] defaultConfig 0 300)) :=
  have hlen : (fa2AfterDisplacement [centerNode, centerNode] [] defaultConfig 0 300).length =
      2 := by
    rw [fa2AfterDisplacement_length]
    rfl
  ⟨hlen, c3_overlap_separation [centerNode, centerNode] [] defaultConfig 0 300 hlen⟩

/-- Counterexample for C3 as frozen: two coincident nodes at the gravity
center receive no net force, stay coincident through the displacement phase
(separation `0 < 65`), and — because the overlap correction requires
`dist > 0.01` — leave the overlap-correction phase still at separation `0`,
not `65`. -/
theorem c3_counterexample :
    nodeDist ((fa2AfterDisplacement [centerNode, centerNode] [] defaultConfig 0 300).getD 0
        default)
      ((fa2AfterDisplacement [centerNode, centerNode] [] defaultConfig 0 300).getD 1 default) <
        65 ∧
      nodeDist
        ((overlapPhase
          (fa2AfterDisplacement [centerNode, centerNode] [] defaultConfig 0 300)).getD 0
          default)
        ((overlapPhase
          (fa2AfterDisplacement [centerNode, centerNode] [] defaultConfig 0 300)).getD 1
          default) ≠ 65 := by
  have h1 : resetPhase [centerNode, centerNode] = [centerNode, centerNode] := rfl
  have hp2 : pairsUpTo 2 = [(0, 1)] := rfl
  have h2 : ∀ s : ℝ, repulsionPhase [centerNode, centerNode] s = [centerNode, centerNode] := by
    intro s
    show (pairsUpTo 2).foldl (repulsionStep s) [centerNode, centerNode] = _
    rw [hp2, List.foldl_cons, List.foldl_nil]
    norm_num [repulsionStep, addForce, List.get?, centerNode]
  have h3 : ∀ cfg : FA2Config,
      attractionPhase [centerNode, centerNode] [] cfg = [centerNode, centerNode] :=
    fun cfg => rfl
  have h4 : ∀ pm : ℝ,
      gravityPhase [centerNode, centerNode] defaultConfig pm = [centerNode, centerNode] := by
    intro pm
    norm_num [gravityPhase, centerNode, defaultConfig]
  have h5 : adaptivePhase [centerNode, centerNode] defaultConfig =
      [⟨500, 300, 0, 0, 0, 0, 1, 0⟩, ⟨500, 300, 0, 0, 0, 0, 1, 0⟩] := by
    norm_num [adaptivePhase, centerNode, defaultConfig, swingingOf, tractionOf,
      Real.sqrt_zero, min_def]
  have h6 : displacePhase
      [(⟨500, 300, 0, 0, 0, 0, 1, 0⟩ : FA2Node), ⟨500, 300, 0, 0, 0, 0, 1, 0⟩]
      defaultConfig =
      [⟨500, 300, 0, 0, 0, 0, 1, 0⟩, ⟨500, 300, 0, 0, 0, 0, 1, 0⟩] := by
    norm_num [displacePhase, Real.sqrt_zero]
  have hmid : fa2AfterDisplacement [centerNode, centerNode] [] defaultConfig 0 300 =
      [⟨500, 300, 0, 0, 0, 0, 1, 0⟩, ⟨500, 300, 0, 0, 0, 0, 1, 0⟩] := by
    unfold fa2AfterDisplacement fa2AfterForces
    dsimp only
    rw [h1, h2, h3, h4, h5, h6]
  have hover : overlapPhase
      [(⟨500, 300, 0, 0, 0, 0, 1, 0⟩ : FA2Node), ⟨500, 300, 0, 0, 0, 0, 1, 0⟩] =
      [⟨500, 300, 0, 0, 0, 0, 1, 0⟩, ⟨500, 300, 0, 0, 0, 0, 1, 0⟩] := by
    show (pairsUpTo 2).foldl overlapStep _ = _
    rw [hp2, List.foldl_cons, List.foldl_nil]
    norm_num [overlapStep, Real.sqrt_zero]
  rw [hmid, hover]
  have hgd : ∀ nd : FA2Node, ([nd, nd] : List FA2Node).getD 0 default = nd := fun _ => rfl
  have hgd1 : ∀ nd : FA2Node, ([nd, nd] : List FA2Node).getD 1 default = nd := fun _ => rfl
  rw [hgd, hgd1]
  norm_num [nodeDist, Real.sqrt_zero]
